import Mathlib

/-!
# Verification of the TupleMeasure_ICQA attribution engine

Shallow embedding, in Lean 4, of the core algorithms of the repository
`TupleMeasure_ICQA`: the constant-weight aggregators (`measures/cbm.py`,
`measures/cim.py`), the greedy and exact minimal-hitting-set solvers and the
RIM responsibility engine (`measures/rim.py`), the per-tuple responsibility
kernel (`compute_icqa_resp.py`), the exact and Monte-Carlo Shapley engines
(`compute_icqa_shap.py`), and the answer-level ICQA aggregation paths
(`compute_icqa_prov.py`, `compute_icqa_resp.py`, `compute_icqa_shap.py`).

Conventions used throughout the embedding:
* Python floats are modelled as `ℚ` (all quantities the engine manipulates
  are ratios of integers, so the rational model is exact where the float
  code accumulates rounding).
* Python `dict` accumulators keyed by tuple identities are modelled as total
  functions `TupleKey → ℚ` updated with `Function.update`; a key that was
  never written holds the default `0`, which is exactly how the callers read
  the dictionaries (`defaultdict(float)` / `.get(tid, 0.0)`).
* A Python `set` being iterated is modelled as the deduplicated list of the
  order in which its elements were inserted; every result proved here is
  independent of that iteration order.
* External solvers (CP-SAT in `rim.py`, Glucose4 in `compute_icqa_resp.py`)
  are modelled by their exact semantics: the minimal cardinality of a set of
  variables satisfying the emitted clauses/constraints.  Wall-clock timeouts
  are not modelled.
* `numpy` random permutations are modelled by an explicit list of sampled
  permutations handed to the function.
-/

/-- `(relation, primary_key)` identity, `common.py` `TupleKey`:
a relation name paired with a normalized integer primary-key tuple. -/
abbrev TupleKey : Type := String × List Int

namespace Measures

/-- One MIS (minimal inconsistent set) is consumed through
`iter_mis_tuples` as the finite list of `TupleKey`s it yields. -/
abbrev MisList : Type := List (List TupleKey)

/-- A tuple-score dictionary (`defaultdict(float)` in the Python code):
total function with default value `0`. -/
abbrev Score : Type := TupleKey → ℚ

/-- The MIS directory: maps a DC name to its loaded MIS list when the file
`mis_dir / f"{dc}.json"` exists, `none` when it does not. -/
abbrev MisDir : Type := String → Option MisList

/-- `cbm.py`, inner loop of `compute_cbm`: the set `tuples_for_dc` of all
tuples appearing in at least one MIS of this DC, as the deduplicated
insertion-order list (model of the Python `set`). -/
def tuples_for_dc (mis_list : MisList) : List TupleKey :=
  (mis_list.foldl (fun acc mis => acc ++ mis) []).dedup

/-- `cbm.py` `compute_cbm`: for each DC in `dcs` whose MIS file exists,
every tuple appearing in at least one MIS of that DC gets `+1`
(`for tk in tuples_for_dc: score[tk] += 1.0`). -/
def compute_cbm (mis_dir : MisDir) (dcs : List String) : Score :=
  dcs.foldl
    (fun score dc =>
      match mis_dir dc with
      | none => score
      | some mis_list =>
          (tuples_for_dc mis_list).foldl
            (fun s tk => Function.update s tk (s tk + 1)) score)
    (fun _ => 0)

/-- `cim.py` `CIM_WEIGHTS`: relation-specific weights by DC, as the literal
association table from the source. -/
def CIM_WEIGHTS : List (String × List (String × ℚ)) :=
  [("DC1", [("lineitem", 1)]),
   ("DC2", [("orders", 2), ("lineitem", 2)]),
   ("DC3", [("orders", 2), ("lineitem", 2)]),
   ("DC4", [("lineitem", 2), ("partsupp", 3), ("part", 1)])]

/-- `CIM_WEIGHTS.get(dc, {})`. -/
def cim_rel_w (dc : String) : List (String × ℚ) :=
  (CIM_WEIGHTS.lookup dc).getD []

/-- `rel_w.get(rel, 0.0)`. -/
def cim_w (dc rel : String) : ℚ :=
  ((cim_rel_w dc).lookup rel).getD 0

/-- `cim.py` `compute_cim`: each occurrence of a tuple inside an MIS of DC
`dc` adds `w(dc, relation)`; a DC absent from the weight table, or with a
missing MIS file, is skipped, and a zero relation weight adds nothing
(`if w: score[(rel, pk)] += w`). -/
def compute_cim (mis_dir : MisDir) (dcs : List String) : Score :=
  dcs.foldl
    (fun score dc =>
      if cim_rel_w dc = [] then score
      else
        match mis_dir dc with
        | none => score
        | some mis_list =>
            mis_list.foldl
              (fun s mis =>
                mis.foldl
                  (fun s' tk =>
                    let w := cim_w dc tk.1
                    if w ≠ 0 then Function.update s' tk (s' tk + w) else s')
                  s)
              score)
    (fun _ => 0)

/-- Spec-side formulation for CBM (`spec.md` §4.1): whether tuple `t`
occurs in at least one witness set of constraint `dc`. -/
def occurs_in_dc (mis_dir : MisDir) (dc : String) (t : TupleKey) : Prop :=
  match mis_dir dc with
  | none => False
  | some mis_list => ∃ mis ∈ mis_list, t ∈ mis

instance (mis_dir : MisDir) (dc : String) (t : TupleKey) :
    Decidable (occurs_in_dc mis_dir dc t) := by
  unfold occurs_in_dc
  cases mis_dir dc <;> infer_instance

/-- The number of occurrences of `t` in the list `l`. -/
def countOcc (t : TupleKey) (l : List TupleKey) : ℕ :=
  (l.filter (fun x => decide (x = t))).length

/-- Spec-side formulation for CIM (`spec.md` §4.1): the number of
occurrences of tuple `t` across the witness sets of constraint `dc`
(0 when the MIS file is missing). -/
def occ_count (mis_dir : MisDir) (dc : String) (t : TupleKey) : ℕ :=
  match mis_dir dc with
  | none => 0
  | some mis_list => (mis_list.map (fun mis => countOcc t mis)).sum

-- ## Fold lemmas for the score accumulators

theorem countOcc_nil (t : TupleKey) : countOcc t [] = 0 := rfl

theorem countOcc_cons (t hd : TupleKey) (tl : List TupleKey) :
    countOcc t (hd :: tl) = (if hd = t then 1 else 0) + countOcc t tl := by
  unfold countOcc
  by_cases h : hd = t
  · subst h
    simp [List.filter_cons]
    omega
  · simp [List.filter_cons, h]

theorem countOcc_nodup (t : TupleKey) (l : List TupleKey) (hnd : l.Nodup) :
    countOcc t l = if t ∈ l then 1 else 0 := by
  induction l with
  | nil => simp [countOcc_nil]
  | cons hd tl ih =>
      rw [List.nodup_cons] at hnd
      rw [countOcc_cons, ih hnd.2]
      by_cases h : hd = t
      · subst h
        rw [if_pos rfl, if_pos (List.mem_cons_self _ _), if_neg hnd.1]
      · rw [if_neg h]
        by_cases hm : t ∈ tl
        · rw [if_pos hm, if_pos (List.mem_cons_of_mem _ hm)]
        · rw [if_neg hm,
            if_neg (fun hc => by
              rcases List.mem_cons.mp hc with h1 | h2
              · exact h h1.symm
              · exact hm h2)]

theorem foldl_update_const (l : List TupleKey) (s : Score) (w : ℚ) (t : TupleKey) :
    (l.foldl (fun s' tk => Function.update s' tk (s' tk + w)) s) t
      = s t + countOcc t l * w := by
  induction l generalizing s with
  | nil => simp [countOcc_nil]
  | cons hd tl ih =>
      simp only [List.foldl_cons, ih, countOcc_cons]
      by_cases h : hd = t
      · subst h
        rw [Function.update_same, if_pos rfl]
        push_cast
        ring
      · rw [Function.update_noteq (Ne.symm h), if_neg h]
        push_cast
        ring

theorem tuples_for_dc_mem (mis_list : MisList) (t : TupleKey) :
    t ∈ tuples_for_dc mis_list ↔ ∃ mis ∈ mis_list, t ∈ mis := by
  unfold tuples_for_dc
  rw [List.mem_dedup]
  suffices h : ∀ (acc : List TupleKey),
      (t ∈ mis_list.foldl (fun acc mis => acc ++ mis) acc
        ↔ t ∈ acc ∨ ∃ mis ∈ mis_list, t ∈ mis) by
    simpa using h []
  induction mis_list with
  | nil => simp
  | cons hd tl ih =>
      intro acc
      simp [ih, List.mem_append, or_assoc]

theorem compute_cbm_step (s : Score) (mis_list : MisList) (t : TupleKey) :
    ((tuples_for_dc mis_list).foldl
        (fun s' tk => Function.update s' tk (s' tk + 1)) s) t
      = s t + (if ∃ mis ∈ mis_list, t ∈ mis then 1 else 0) := by
  rw [foldl_update_const]
  have hnd : (tuples_for_dc mis_list).Nodup := List.nodup_dedup _
  rw [countOcc_nodup t _ hnd]
  by_cases hmem : t ∈ tuples_for_dc mis_list
  · rw [if_pos hmem, if_pos ((tuples_for_dc_mem mis_list t).mp hmem)]
    push_cast
    ring
  · rw [if_neg hmem, if_neg (fun h => hmem ((tuples_for_dc_mem mis_list t).mpr h))]
    push_cast
    ring

/-- Closed form of `compute_cbm`: the score of `t` is the number of DCs in
`dcs` in whose (existing) MIS family `t` occurs at least once. -/
theorem compute_cbm_closed (mis_dir : MisDir) (dcs : List String) (t : TupleKey) :
    compute_cbm mis_dir dcs t
      = ((dcs.filter (fun dc => decide (occurs_in_dc mis_dir dc t))).length : ℚ) := by
  unfold compute_cbm
  suffices h : ∀ (s : Score),
      (dcs.foldl
        (fun score dc =>
          match mis_dir dc with
          | none => score
          | some mis_list =>
              (tuples_for_dc mis_list).foldl
                (fun s' tk => Function.update s' tk (s' tk + 1)) score)
        s) t
      = s t + ((dcs.filter (fun dc => decide (occurs_in_dc mis_dir dc t))).length : ℚ) by
    simpa using h (fun _ => 0)
  induction dcs with
  | nil => intro s; simp
  | cons hd tl ih =>
      intro s
      simp only [List.foldl_cons, List.filter_cons]
      cases hdc : mis_dir hd with
      | none =>
          have hno : ¬ occurs_in_dc mis_dir hd t := by
            unfold occurs_in_dc
            rw [hdc]
            exact not_false
          dsimp only
          simp [ih, hno]
      | some mis_list =>
          dsimp only
          have hocc : occurs_in_dc mis_dir hd t ↔ ∃ mis ∈ mis_list, t ∈ mis := by
            unfold occurs_in_dc
            rw [hdc]
          by_cases hex : ∃ mis ∈ mis_list, t ∈ mis
          · rw [ih, compute_cbm_step]
            have hdec : decide (occurs_in_dc mis_dir hd t) = true := by
              simp [hocc, hex]
            rw [hdec, if_pos hex]
            simp only [if_true, List.length_cons]
            push_cast
            ring
          · rw [ih, compute_cbm_step]
            have hdec : decide (occurs_in_dc mis_dir hd t) = false := by
              simp [hocc, hex]
            rw [hdec, if_neg hex]
            simp

theorem cim_inner_fold (mis : List TupleKey) (dc : String) (s : Score) (t : TupleKey) :
    (mis.foldl
        (fun s' tk =>
          let w := cim_w dc tk.1
          if w ≠ 0 then Function.update s' tk (s' tk + w) else s')
        s) t
      = s t + (countOcc t mis : ℚ) * cim_w dc t.1 := by
  induction mis generalizing s with
  | nil => simp [countOcc_nil]
  | cons hd tl ih =>
      simp only [List.foldl_cons, ih, countOcc_cons]
      by_cases h : hd = t
      · subst h
        by_cases hw : cim_w dc hd.1 ≠ 0
        · rw [if_pos hw, Function.update_same, if_pos rfl]
          push_cast
          ring
        · push_neg at hw
          rw [if_neg (by simpa using hw), if_pos rfl, hw]
          push_cast
          ring
      · by_cases hw : cim_w dc hd.1 ≠ 0
        · rw [if_pos hw, Function.update_noteq (Ne.symm h), if_neg h]
          push_cast
          ring
        · rw [if_neg hw, if_neg h]
          push_cast
          ring

theorem cim_mis_fold (mis_list : MisList) (dc : String) (s : Score) (t : TupleKey) :
    (mis_list.foldl
        (fun s' mis =>
          mis.foldl
            (fun s'' tk =>
              let w := cim_w dc tk.1
              if w ≠ 0 then Function.update s'' tk (s'' tk + w) else s'')
            s')
        s) t
      = s t + ((mis_list.map (fun mis => countOcc t mis)).sum : ℚ) * cim_w dc t.1 := by
  induction mis_list generalizing s with
  | nil => simp
  | cons hd tl ih =>
      simp only [List.foldl_cons, ih, cim_inner_fold, List.map_cons, List.sum_cons]
      push_cast
      ring

/-- Closed form of `compute_cim`: the score of `t = (rel, pk)` is
`Σ_{dc ∈ dcs} (occurrences of t in dc's family) · w(dc, rel)`. -/
theorem compute_cim_closed (mis_dir : MisDir) (dcs : List String) (t : TupleKey) :
    compute_cim mis_dir dcs t
      = (dcs.map (fun dc => (occ_count mis_dir dc t : ℚ) * cim_w dc t.1)).sum := by
  unfold compute_cim
  suffices h : ∀ (s : Score),
      (dcs.foldl
        (fun score dc =>
          if cim_rel_w dc = [] then score
          else
            match mis_dir dc with
            | none => score
            | some mis_list =>
                mis_list.foldl
                  (fun s' mis =>
                    mis.foldl
                      (fun s'' tk =>
                        let w := cim_w dc tk.1
                        if w ≠ 0 then Function.update s'' tk (s'' tk + w) else s'')
                    s')
                  score)
        s) t
      = s t + (dcs.map (fun dc => (occ_count mis_dir dc t : ℚ) * cim_w dc t.1)).sum by
    simpa using h (fun _ => 0)
  induction dcs with
  | nil => intro s; simp
  | cons hd tl ih =>
      intro s
      simp only [List.foldl_cons, List.map_cons, List.sum_cons]
      by_cases hw : cim_rel_w hd = []
      · have hw0 : cim_w hd t.1 = 0 := by
          unfold cim_w
          rw [hw]
          rfl
        rw [if_pos hw, ih, hw0]
        ring
      · rw [if_neg hw]
        cases hdc : mis_dir hd with
        | none =>
            dsimp only
            have h0 : occ_count mis_dir hd t = 0 := by
              unfold occ_count
              rw [hdc]
            rw [ih, h0]
            push_cast
            ring
        | some mis_list =>
            dsimp only
            rw [ih, cim_mis_fold]
            have heq : occ_count mis_dir hd t
                = (mis_list.map (fun mis => countOcc t mis)).sum := by
              unfold occ_count
              rw [hdc]
            rw [heq]
            ring

end Measures

namespace HittingSet

/-- `rim.py` `solve_min_hitting_set_size_cpsat`: the node set of the model,
`nodes = ⋃ e` (`for e in edges: nodes |= e`).  The solver works on integer
node ids; we keep the generic element type, since the id assignment is a
bijection and hitting-set sizes are invariant under it. -/
def edge_nodes {α : Type} [DecidableEq α] (edges : List (Finset α)) : Finset α :=
  edges.foldl (fun acc e => acc ∪ e) ∅

/-- The constraints emitted by `solve_min_hitting_set_size_cpsat`: for each
NON-empty edge `e`, `sum_{i in e} x_i >= 1` (the source guards
`if e: model.Add(...)`, so an empty edge emits no constraint at all). -/
def cpsat_feasible {α : Type} [DecidableEq α] (edges : List (Finset α))
    (H : Finset α) : Prop :=
  ∀ e ∈ edges, e.Nonempty → (H ∩ e).Nonempty

instance {α : Type} [DecidableEq α] (edges : List (Finset α)) (H : Finset α) :
    Decidable (cpsat_feasible edges H) := by
  unfold cpsat_feasible
  infer_instance

theorem edge_nodes_spec {α : Type} [DecidableEq α] (edges : List (Finset α))
    (x : α) : x ∈ edge_nodes edges ↔ ∃ e ∈ edges, x ∈ e := by
  unfold edge_nodes
  suffices h : ∀ acc : Finset α,
      (x ∈ edges.foldl (fun acc e => acc ∪ e) acc
        ↔ x ∈ acc ∨ ∃ e ∈ edges, x ∈ e) by
    simpa using h ∅
  induction edges with
  | nil => simp
  | cons hd tl ih =>
      intro acc
      simp [ih, Finset.mem_union, or_assoc]

theorem cpsat_feasible_nodes {α : Type} [DecidableEq α] (edges : List (Finset α)) :
    cpsat_feasible edges (edge_nodes edges) := by
  intro e he hne
  obtain ⟨x, hx⟩ := hne
  exact ⟨x, Finset.mem_inter.mpr ⟨(edge_nodes_spec edges x).mpr ⟨e, he, hx⟩, hx⟩⟩

/-- There is always a model size that admits a feasible assignment: the full
node set works. -/
theorem cpsat_feasible_exists {α : Type} [DecidableEq α] (edges : List (Finset α)) :
    ∃ k : ℕ, ∃ H ∈ (edge_nodes edges).powerset, H.card ≤ k ∧ cpsat_feasible edges H :=
  ⟨(edge_nodes edges).card, edge_nodes edges, Finset.mem_powerset_self _, le_refl _,
    cpsat_feasible_nodes edges⟩

/-- `rim.py` `solve_min_hitting_set_size_cpsat`, modelled at its exact
(`OPTIMAL`) semantics: minimize `Σ x_i` subject to, for every non-empty edge
`e`, `Σ_{i∈e} x_i ≥ 1`, i.e. the least cardinality of a set of nodes meeting
every non-empty edge; `0` (status `TRIVIAL`) when the edge list is empty.
The `upper_bound` cut passed by the caller is the greedy bound, which is
itself the size of a feasible assignment (theorem `greedy_select_feasible`
below), so the cut never excludes the optimum; wall-clock timeouts are not
modelled. -/
def solve_min_hitting_set_size_cpsat {α : Type} [DecidableEq α]
    (edges : List (Finset α)) : ℕ :=
  if edges = [] then 0
  else Nat.find (cpsat_feasible_exists edges)

theorem solve_min_spec {α : Type} [DecidableEq α] (edges : List (Finset α))
    (h : edges ≠ []) :
    (∃ H ∈ (edge_nodes edges).powerset,
        H.card ≤ solve_min_hitting_set_size_cpsat edges ∧ cpsat_feasible edges H)
    ∧ ∀ H : Finset α, cpsat_feasible edges H →
        solve_min_hitting_set_size_cpsat edges ≤ H.card := by
  unfold solve_min_hitting_set_size_cpsat
  rw [if_neg h]
  constructor
  · exact Nat.find_spec (cpsat_feasible_exists edges)
  · intro H hH
    apply Nat.find_min' (cpsat_feasible_exists edges)
    refine ⟨H ∩ edge_nodes edges, Finset.mem_powerset.mpr Finset.inter_subset_right, ?_, ?_⟩
    · exact le_trans (Finset.card_le_card Finset.inter_subset_left) (le_refl _)
    · intro e he hne
      obtain ⟨x, hx⟩ := hH e he hne
      rw [Finset.mem_inter] at hx
      refine ⟨x, Finset.mem_inter.mpr ⟨?_, hx.2⟩⟩
      exact Finset.mem_inter.mpr ⟨hx.1, (edge_nodes_spec edges x).mpr ⟨e, he, hx.2⟩⟩

end HittingSet

namespace Greedy

open HittingSet

/-- `rim.py` `greedy_hitting_set_size`, frequency of a universe element
among the uncovered edges (`freq[u] += 1` per edge containing `u`). -/
def freq (es : List (Finset ℕ)) (u : ℕ) : ℕ :=
  (es.filter (fun e => decide (u ∈ e))).length

/-- The `best_u, best_f` selection scan: iterate the frequency keys (the
Python dict iteration is determinized here by sorting the node set) and keep
the first element whose frequency strictly exceeds the best so far
(`if f > best_f: best_u, best_f = u, f`, starting from `best_f = -1`). -/
def pickBest (es : List (Finset ℕ)) : Option ℕ :=
  (((edge_nodes es).sort (· ≤ ·)).foldl
    (fun acc u =>
      match acc with
      | none => some (u, freq es u)
      | some (bu, bf) => if freq es u > bf then some (u, freq es u) else some (bu, bf))
    none).map Prod.fst

/-- The greedy loop of `greedy_hitting_set_size`, with the selected elements
made explicit: repeatedly pick `best_u` and drop every edge it hits
(`uncovered = [e for e in uncovered if best_u not in e]`).  The loop runs
while `uncovered` is non-empty; `fuel` bounds the iteration count, and since
every iteration removes at least one edge, `fuel = es.length` is enough
(theorem `greedy_select_hits`). -/
def greedy_select : ℕ → List (Finset ℕ) → List ℕ
  | 0, _ => []
  | fuel + 1, es =>
      if es = [] then []
      else
        match pickBest es with
        | none => []
        | some u => u :: greedy_select fuel (es.filter (fun e => decide (u ∉ e)))

/-- `rim.py` `greedy_hitting_set_size`: empty edges are dropped up front
(`uncovered = [set(e) for e in edges if e]`), then the loop counts one per
selected element (`size += 1`); the count is the number of selected
elements. -/
def greedy_hitting_set_size (edges : List (Finset ℕ)) : ℕ :=
  let uncovered := edges.filter (fun e => decide e.Nonempty)
  (greedy_select uncovered.length uncovered).length

-- ## Correctness of the selection scan

theorem pick_fold_mem (es : List (Finset ℕ)) (l : List ℕ) (acc : Option (ℕ × ℕ))
    (u : ℕ) (f : ℕ)
    (h : l.foldl
        (fun acc v =>
          match acc with
          | none => some (v, freq es v)
          | some (bu, bf) => if freq es v > bf then some (v, freq es v) else some (bu, bf))
        acc = some (u, f)) :
    acc = some (u, f) ∨ u ∈ l := by
  induction l generalizing acc with
  | nil => exact Or.inl h
  | cons hd tl ih =>
      rw [List.foldl_cons] at h
      rcases ih _ h with hacc | hmem
      · cases acc with
        | none =>
            simp only [Option.some.injEq, Prod.mk.injEq] at hacc
            exact Or.inr (by simp [hacc.1])
        | some p =>
            obtain ⟨bu, bf⟩ := p
            simp only at hacc
            by_cases hgt : freq es hd > bf
            · rw [if_pos hgt, Option.some.injEq, Prod.mk.injEq] at hacc
              exact Or.inr (by simp [hacc.1])
            · rw [if_neg hgt] at hacc
              exact Or.inl hacc
      · exact Or.inr (List.mem_cons_of_mem _ hmem)

theorem pick_fold_some (es : List (Finset ℕ)) (l : List ℕ) (acc : Option (ℕ × ℕ))
    (hl : l ≠ [] ∨ acc ≠ none) :
    (l.foldl
        (fun acc v =>
          match acc with
          | none => some (v, freq es v)
          | some (bu, bf) => if freq es v > bf then some (v, freq es v) else some (bu, bf))
        acc) ≠ none := by
  induction l generalizing acc with
  | nil =>
      rcases hl with h | h
      · exact absurd rfl h
      · simpa using h
  | cons hd tl ih =>
      rw [List.foldl_cons]
      apply ih
      right
      cases acc with
      | none => simp
      | some p =>
          obtain ⟨bu, bf⟩ := p
          by_cases hgt : freq es hd > bf
          · simp [hgt]
          · simp [hgt]

theorem pickBest_mem (es : List (Finset ℕ)) (u : ℕ) (h : pickBest es = some u) :
    u ∈ edge_nodes es := by
  unfold pickBest at h
  rw [Option.map_eq_some'] at h
  obtain ⟨⟨u', f⟩, hfold, hu⟩ := h
  simp only at hu
  subst hu
  rcases pick_fold_mem es _ _ _ _ hfold with hacc | hmem
  · exact absurd hacc (by simp)
  · rwa [Finset.mem_sort] at hmem

theorem pickBest_some (es : List (Finset ℕ)) (hne : es ≠ [])
    (hall : ∀ e ∈ es, e.Nonempty) : ∃ u, pickBest es = some u := by
  have hnodes : (edge_nodes es).Nonempty := by
    obtain ⟨e, he⟩ := List.exists_mem_of_ne_nil es hne
    obtain ⟨x, hx⟩ := hall e he
    exact ⟨x, (edge_nodes_spec es x).mpr ⟨e, he, hx⟩⟩
  have hsort : (edge_nodes es).sort (· ≤ ·) ≠ [] := by
    intro hcon
    obtain ⟨x, hx⟩ := hnodes
    have : x ∈ (edge_nodes es).sort (· ≤ ·) := Finset.mem_sort _ |>.mpr hx
    rw [hcon] at this
    exact absurd this (List.not_mem_nil x)
  have hres := pick_fold_some es ((edge_nodes es).sort (· ≤ ·)) none (Or.inl hsort)
  unfold pickBest
  cases hfold : ((edge_nodes es).sort (· ≤ ·)).foldl
      (fun acc v =>
        match acc with
        | none => some (v, freq es v)
        | some (bu, bf) => if freq es v > bf then some (v, freq es v) else some (bu, bf))
      none with
  | none => exact absurd hfold hres
  | some p => exact ⟨p.1, rfl⟩

-- ## Properties of the greedy selection

theorem greedy_select_subset (fuel : ℕ) (es : List (Finset ℕ)) :
    ∀ u ∈ greedy_select fuel es, u ∈ edge_nodes es := by
  induction fuel generalizing es with
  | zero => simp [greedy_select]
  | succ fuel ih =>
      intro u hu
      unfold greedy_select at hu
      by_cases hes : es = []
      · rw [if_pos hes] at hu
        exact absurd hu (List.not_mem_nil u)
      · rw [if_neg hes] at hu
        cases hpick : pickBest es with
        | none => rw [hpick] at hu; exact absurd hu (List.not_mem_nil u)
        | some v =>
            rw [hpick] at hu
            rcases List.mem_cons.mp hu with h | h
            · subst h
              exact pickBest_mem es u hpick
            · have := ih _ u h
              rw [edge_nodes_spec] at this ⊢
              obtain ⟨e, he, hue⟩ := this
              exact ⟨e, List.mem_of_mem_filter he, hue⟩

theorem greedy_select_nodup (fuel : ℕ) (es : List (Finset ℕ)) :
    (greedy_select fuel es).Nodup := by
  induction fuel generalizing es with
  | zero => simp [greedy_select]
  | succ fuel ih =>
      unfold greedy_select
      by_cases hes : es = []
      · rw [if_pos hes]; exact List.nodup_nil
      · rw [if_neg hes]
        cases hpick : pickBest es with
        | none => exact List.nodup_nil
        | some u =>
            rw [List.nodup_cons]
            refine ⟨?_, ih _⟩
            intro hmem
            have := greedy_select_subset fuel _ u hmem
            rw [edge_nodes_spec] at this
            obtain ⟨e, he, hue⟩ := this
            have := List.of_mem_filter he
            simp only [decide_eq_true_eq] at this
            exact this hue

theorem greedy_select_hits (fuel : ℕ) (es : List (Finset ℕ))
    (hfuel : es.length ≤ fuel) (hall : ∀ e ∈ es, e.Nonempty) :
    ∀ e ∈ es, ∃ u ∈ greedy_select fuel es, u ∈ e := by
  induction fuel generalizing es with
  | zero =>
      intro e he
      rw [Nat.le_zero, List.length_eq_zero] at hfuel
      subst hfuel
      exact absurd he (List.not_mem_nil e)
  | succ fuel ih =>
      intro e he
      have hes : es ≠ [] := fun hcon => by
        subst hcon
        exact absurd he (List.not_mem_nil e)
      obtain ⟨u, hpick⟩ := pickBest_some es hes hall
      unfold greedy_select
      rw [if_neg hes, hpick]
      by_cases hue : u ∈ e
      · exact ⟨u, List.mem_cons_self _ _, hue⟩
      · have hefilter : e ∈ es.filter (fun e => decide (u ∉ e)) :=
          List.mem_filter.mpr ⟨he, by simpa using hue⟩
        have hulen : (es.filter (fun e => decide (u ∉ e))).length < es.length := by
          have humem : u ∈ edge_nodes es := pickBest_mem es u hpick
          rw [edge_nodes_spec] at humem
          obtain ⟨e', he', hue'⟩ := humem
          apply List.length_filter_lt_length_iff_exists.mpr
          exact ⟨e', he', by simpa using hue'⟩
        have hfuel' : (es.filter (fun e => decide (u ∉ e))).length ≤ fuel := by
          omega
        have hall' : ∀ e' ∈ es.filter (fun e => decide (u ∉ e)), e'.Nonempty :=
          fun e' he' => hall e' (List.mem_of_mem_filter he')
        obtain ⟨v, hv, hve⟩ := ih _ hfuel' hall' e hefilter
        exact ⟨v, List.mem_cons_of_mem _ hv, hve⟩

end Greedy

namespace Rim

open Measures HittingSet

/-- `rim.py` `build_hypergraph_from_mis`: hyperedges (as sets of `TupleKey`)
and the universe (union of the edges).  An MIS that yields no tuples is
skipped (`if not e: continue`) — it appears neither among the edges nor in
the universe, and no error is raised. -/
def build_hypergraph_from_mis (mis_list : MisList) :
    List (Finset TupleKey) × Finset TupleKey :=
  mis_list.foldl
    (fun acc mis =>
      let e := mis.toFinset
      if e = ∅ then acc else (acc.1 ++ [e], acc.2 ∪ e))
    ([], ∅)

/-- `compute_rim_for_dc`, per-tuple `Gamma(t)`: the minimal hitting-set size
of the edges that do NOT contain `t` (CP-SAT at its exact semantics — the
greedy bound passed as `upper_bound` is feasible by `greedy_select_hits`, so
the cut never excludes the optimum; the per-signature cache is semantically
transparent because equal filtered edge collections give equal results). -/
def rim_gamma (mis_list : MisList) (t : TupleKey) : ℕ :=
  solve_min_hitting_set_size_cpsat
    ((build_hypergraph_from_mis mis_list).1.filter (fun e => decide (t ∉ e)))

/-- `compute_rim_for_dc`: `rho(t) = 1/(1+Gamma(t))`. -/
def rim_rho (mis_list : MisList) (t : TupleKey) : ℚ :=
  1 / (1 + (rim_gamma mis_list t : ℚ))

/-- `compute_rim_for_dc`: `denom = sum(rho.values())`, over the universe. -/
def rim_denom (mis_list : MisList) : ℚ :=
  ∑ t ∈ (build_hypergraph_from_mis mis_list).2, rim_rho mis_list t

/-- `rim.py` `compute_rim_for_dc` for one DC with `m = |MIS|`:
the universe together with the normalized, scaled contribution map
`t ↦ (rho(t)/denom)·m` (`0` outside the universe); the result is empty in
the two degenerate branches of the source (`m = 0`, `denom ≤ 0`). -/
def compute_rim_for_dc (mis_list : MisList) :
    Finset TupleKey × (TupleKey → ℚ) :=
  if mis_list = [] then (∅, fun _ => 0)
  else
    if rim_denom mis_list ≤ 0 then (∅, fun _ => 0)
    else
      ((build_hypergraph_from_mis mis_list).2,
       fun t =>
        if t ∈ (build_hypergraph_from_mis mis_list).2
        then rim_rho mis_list t / rim_denom mis_list * (mis_list.length : ℚ)
        else 0)

theorem rim_rho_pos (mis_list : MisList) (t : TupleKey) :
    0 < rim_rho mis_list t := by
  unfold rim_rho
  apply div_pos one_pos
  positivity

theorem rim_denom_pos (mis_list : MisList)
    (huniv : (build_hypergraph_from_mis mis_list).2.Nonempty) :
    0 < rim_denom mis_list := by
  unfold rim_denom
  exact Finset.sum_pos (fun t _ => rim_rho_pos mis_list t) huniv

/-- The per-constraint RIM contributions of `compute_rim_for_dc` sum, over
the constraint's universe, to exactly the witness-set count `m`. -/
theorem compute_rim_sum (mis_list : MisList) (hne : mis_list ≠ [])
    (huniv : (build_hypergraph_from_mis mis_list).2.Nonempty) :
    ∑ t ∈ (compute_rim_for_dc mis_list).1, (compute_rim_for_dc mis_list).2 t
      = (mis_list.length : ℚ) := by
  have hpos := rim_denom_pos mis_list huniv
  unfold compute_rim_for_dc
  rw [if_neg hne, if_neg (not_le.mpr hpos)]
  simp only
  rw [Finset.sum_congr rfl (fun t ht => if_pos ht), ← Finset.sum_mul,
    ← Finset.sum_div]
  rw [show ∑ t ∈ (build_hypergraph_from_mis mis_list).2, rim_rho mis_list t
      = rim_denom mis_list from rfl]
  rw [div_self (ne_of_gt hpos), one_mul]

end Rim

namespace Resp

/-- Semantics of the Glucose4 query issued by `min_hitting_set_size_for_t`
at bound `k`: the clauses `⋁_{i∈S} x_i` for each filtered support set,
together with the cardinality encoding `Σ x_i ≤ k`, are satisfiable iff
some set of at most `k` universe elements meets every filtered support. -/
def sat_hittable {n : ℕ} (sets : List (Finset (Fin n))) (k : ℕ) : Prop :=
  ∃ H : Finset (Fin n), H.card ≤ k ∧ ∀ S ∈ sets, (H ∩ S).Nonempty

instance {n : ℕ} (sets : List (Finset (Fin n))) (k : ℕ) :
    Decidable (sat_hittable sets k) := by
  unfold sat_hittable
  infer_instance

/-- `compute_icqa_resp.py` `min_hitting_set_size_for_t`: filter the supports
avoiding `t_idx` (`S^-t`); return 0 when none remain; return 0 immediately
when some remaining support is empty (the inner `if not S: return 0` guard);
otherwise try `k = 0, …, n` and return the first `k` whose SAT query is
satisfiable, falling back to `n` after the loop. -/
def min_hitting_set_size_for_t {n : ℕ} (support_sets : List (Finset (Fin n)))
    (t_idx : Fin n) : ℕ :=
  let sets_minus_t := support_sets.filter (fun S => decide (t_idx ∉ S))
  if sets_minus_t = [] then 0
  else if sets_minus_t.any (fun S => decide (S = ∅)) then 0
  else
    match (List.range (n + 1)).find? (fun k => decide (sat_hittable sets_minus_t k)) with
    | some k => k
    | none => n

/-- `compute_icqa_resp.py` `compute_resp_for_query`:
`rho[tid] = 1.0 / (1 + h_star)`. -/
def resp_rho {n : ℕ} (support_sets : List (Finset (Fin n))) (t_idx : Fin n) : ℚ :=
  1 / (1 + (min_hitting_set_size_for_t support_sets t_idx : ℚ))

theorem resp_rho_pos {n : ℕ} (support_sets : List (Finset (Fin n))) (t : Fin n) :
    0 < resp_rho support_sets t := by
  unfold resp_rho
  apply div_pos one_pos
  positivity

theorem resp_rho_le_one {n : ℕ} (support_sets : List (Finset (Fin n))) (t : Fin n) :
    resp_rho support_sets t ≤ 1 := by
  unfold resp_rho
  rw [div_le_one (by positivity)]
  simp

/-- `h*(t) = 0` exactly when every support set contains `t` (for non-empty
families of non-empty supports). -/
theorem min_hitting_eq_zero_iff {n : ℕ} (support_sets : List (Finset (Fin n)))
    (t : Fin n) (hne : support_sets ≠ []) (hall : ∀ S ∈ support_sets, S.Nonempty) :
    min_hitting_set_size_for_t support_sets t = 0 ↔ ∀ S ∈ support_sets, t ∈ S := by
  unfold min_hitting_set_size_for_t
  by_cases hfil : support_sets.filter (fun S => decide (t ∉ S)) = []
  · rw [if_pos hfil]
    simp only [true_iff]
    intro S hS
    by_contra htS
    have : S ∈ support_sets.filter (fun S => decide (t ∉ S)) :=
      List.mem_filter.mpr ⟨hS, by simpa using htS⟩
    rw [hfil] at this
    exact absurd this (List.not_mem_nil S)
  · rw [if_neg hfil]
    have hnoempty : ¬ (support_sets.filter (fun S => decide (t ∉ S))).any
        (fun S => decide (S = ∅)) := by
      rw [List.any_eq_true]
      push_neg
      intro S hS
      have hSne : S.Nonempty := hall S (List.mem_of_mem_filter hS)
      simpa using Finset.nonempty_iff_ne_empty.mp hSne
    rw [if_neg (by simpa using hnoempty)]
    have hnot0 : ¬ sat_hittable (support_sets.filter (fun S => decide (t ∉ S))) 0 := by
      rintro ⟨H, hcard, hhits⟩
      obtain ⟨S, hS⟩ := List.exists_mem_of_ne_nil _ hfil
      obtain ⟨x, hx⟩ := hhits S hS
      rw [Nat.le_zero, Finset.card_eq_zero] at hcard
      subst hcard
      simp at hx
    have hn1 : 1 ≤ n := t.pos
    constructor
    · intro h0
      exfalso
      cases hfind : (List.range (n + 1)).find?
          (fun k => decide (sat_hittable (support_sets.filter (fun S => decide (t ∉ S))) k)) with
      | none =>
          rw [hfind] at h0
          have h0' : n = 0 := h0
          omega
      | some k =>
          rw [hfind] at h0
          have h0' : k = 0 := h0
          subst h0'
          have := List.find?_some hfind
          simp only [decide_eq_true_eq] at this
          exact hnot0 this
    · intro hallmem
      exfalso
      obtain ⟨S, hS⟩ := List.exists_mem_of_ne_nil _ hfil
      have := List.of_mem_filter hS
      simp only [decide_eq_true_eq] at this
      exact this (hallmem S (List.mem_of_mem_filter hS))

/-- Responsibility is `1` exactly when every support set contains `t`. -/
theorem resp_rho_eq_one_iff {n : ℕ} (support_sets : List (Finset (Fin n)))
    (t : Fin n) (hne : support_sets ≠ []) (hall : ∀ S ∈ support_sets, S.Nonempty) :
    resp_rho support_sets t = 1 ↔ ∀ S ∈ support_sets, t ∈ S := by
  rw [← min_hitting_eq_zero_iff support_sets t hne hall]
  unfold resp_rho
  constructor
  · intro h1
    by_contra hne0
    have hge : 1 ≤ (min_hitting_set_size_for_t support_sets t : ℚ) := by
      have : 1 ≤ min_hitting_set_size_for_t support_sets t := by omega
      exact_mod_cast this
    rw [div_eq_one_iff_eq (by positivity)] at h1
    have : (min_hitting_set_size_for_t support_sets t : ℚ) = 0 := by linarith
    have : min_hitting_set_size_for_t support_sets t = 0 := by exact_mod_cast this
    exact hne0 this
  · intro h0
    rw [h0]
    norm_num

end Resp

namespace Shap

/-- `compute_icqa_shap.py` `_compute_v_masks`: the coalition game value
`v(C) = 1` iff the coalition hits every support set
(`all(mask & sm for sm in support_masks)`); bit masks are modelled as
`Finset (Fin n)`, `mask & sm ≠ 0` as `(C ∩ sm).Nonempty`. -/
def vGame {n : ℕ} (support_sets : List (Finset (Fin n))) (C : Finset (Fin n)) : ℚ :=
  if ∀ sm ∈ support_sets, (C ∩ sm).Nonempty then 1 else 0

/-- The coalition weight `fact[k] * fact[n-k-1] / denom` of `exact_shapley`
(`denom = fact[n]`). -/
def shapWeight (n k : ℕ) : ℚ :=
  (k.factorial : ℚ) * ((n - k - 1).factorial : ℚ) / (n.factorial : ℚ)

/-- `compute_icqa_shap.py` `exact_shapley`: for element `t`, sum over all
coalitions `C` not containing `t` (masks with bit `t` clear, i.e. subsets of
`univ.erase t`) of `weight(|C|) · (v(C∪{t}) − v(C))`; the source skips terms
with `v(C∪{t}) = v(C)`, which are zero. -/
def exact_shapley {n : ℕ} (support_sets : List (Finset (Fin n))) (t : Fin n) : ℚ :=
  ∑ C ∈ (Finset.univ.erase t).powerset,
    shapWeight n C.card * (vGame support_sets (insert t C) - vGame support_sets C)

/-- The per-permutation walk of `approx_shapley`: scan the permutation,
growing the coalition; the first element whose insertion makes the coalition
hit every support set is credited (`counts[idx] += 1; break`); `none` when
the walk exhausts the permutation without reaching `v = 1`. -/
def walkCredit {n : ℕ} (support_sets : List (Finset (Fin n))) :
    Finset (Fin n) → List (Fin n) → Option (Fin n)
  | _, [] => none
  | C, idx :: rest =>
      if ∀ sm ∈ support_sets, ((insert idx C) ∩ sm).Nonempty then some idx
      else walkCredit support_sets (insert idx C) rest

/-- `approx_shapley`'s `counts` array after the sampling loop: one increment
per sampled permutation, at the element credited by its walk. -/
def counts {n : ℕ} (support_sets : List (Finset (Fin n)))
    (perms : List (List (Fin n))) : Fin n → ℕ :=
  perms.foldl
    (fun c p =>
      match walkCredit support_sets ∅ p with
      | some t => Function.update c t (c t + 1)
      | none => c)
    (fun _ => 0)

/-- `compute_icqa_shap.py` `approx_shapley`: Monte-Carlo estimate
`phi = counts / num_samples`, with the sampled permutations passed
explicitly (model of the `rng.permutation(n)` draws). -/
def approx_shapley {n : ℕ} (support_sets : List (Finset (Fin n)))
    (perms : List (List (Fin n))) (t : Fin n) : ℚ :=
  (counts support_sets perms t : ℚ) / (perms.length : ℚ)

end Shap

namespace Shap

theorem powerset_erase_eq_filter {n : ℕ} (t : Fin n) :
    ((Finset.univ : Finset (Fin n)).erase t).powerset
      = (Finset.univ : Finset (Fin n)).powerset.filter (fun C => t ∉ C) := by
  ext C
  simp [Finset.subset_erase]

/-- Swap the double sum `Σ_t Σ_{C ∌ t}` into `Σ_C Σ_{t ∈ Cᶜ}`. -/
theorem sum_swap_erase {n : ℕ} (f : Fin n → Finset (Fin n) → ℚ) :
    ∑ t : Fin n, ∑ C ∈ (Finset.univ.erase t).powerset, f t C
      = ∑ C ∈ (Finset.univ : Finset (Fin n)).powerset, ∑ t ∈ Cᶜ, f t C := by
  have h1 : ∀ t : Fin n,
      ∑ C ∈ (Finset.univ.erase t).powerset, f t C
        = ∑ C ∈ (Finset.univ : Finset (Fin n)).powerset,
            if t ∉ C then f t C else 0 := by
    intro t
    rw [powerset_erase_eq_filter, Finset.sum_filter]
  rw [Finset.sum_congr rfl (fun t _ => h1 t), Finset.sum_comm]
  apply Finset.sum_congr rfl
  intro C _
  rw [← Finset.sum_filter]
  apply Finset.sum_congr _ (fun t _ => rfl)
  ext t
  simp

/-- Reindex `(C, t)` with `t ∉ C` to `(S, t)` with `t ∈ S` via
`S = insert t C`. -/
theorem sum_reindex_insert {n : ℕ} (g : Finset (Fin n) → Fin n → ℚ) :
    ∑ C ∈ (Finset.univ : Finset (Fin n)).powerset, ∑ t ∈ Cᶜ, g (insert t C) t
      = ∑ S ∈ (Finset.univ : Finset (Fin n)).powerset, ∑ t ∈ S, g S t := by
  rw [Finset.sum_sigma' ((Finset.univ : Finset (Fin n)).powerset) (fun C => Cᶜ)
      (fun C t => g (insert t C) t),
    Finset.sum_sigma' ((Finset.univ : Finset (Fin n)).powerset) (fun S => S)
      (fun S t => g S t)]
  apply Finset.sum_nbij' (fun p => ⟨insert p.2 p.1, p.2⟩) (fun q => ⟨q.1.erase q.2, q.2⟩)
  · rintro ⟨C, t⟩ hp
    rw [Finset.mem_sigma] at hp ⊢
    exact ⟨Finset.mem_powerset.mpr (Finset.subset_univ _), Finset.mem_insert_self _ _⟩
  · rintro ⟨S, t⟩ hq
    rw [Finset.mem_sigma] at hq ⊢
    exact ⟨Finset.mem_powerset.mpr (Finset.subset_univ _),
      Finset.mem_compl.mpr (Finset.not_mem_erase _ _)⟩
  · rintro ⟨C, t⟩ hp
    rw [Finset.mem_sigma] at hp
    have ht : t ∉ C := Finset.mem_compl.mp hp.2
    exact Sigma.mk.inj_iff.mpr ⟨Finset.erase_insert ht, heq_of_eq rfl⟩
  · rintro ⟨S, t⟩ hq
    rw [Finset.mem_sigma] at hq
    have ht : t ∈ S := hq.2
    exact Sigma.mk.inj_iff.mpr ⟨Finset.insert_erase ht, heq_of_eq rfl⟩
  · rintro ⟨C, t⟩ hp
    rfl

end Shap

namespace Shap

theorem factorial_cast_ne_zero (m : ℕ) : ((m.factorial : ℚ)) ≠ 0 := by
  have := m.factorial_pos
  positivity

theorem shapley_coeff_mid (n s : ℕ) (h1 : 1 ≤ s) (h2 : s ≤ n - 1) (hn : 1 ≤ n) :
    (s : ℚ) * shapWeight n (s - 1) - ((n - s : ℕ) : ℚ) * shapWeight n s = 0 := by
  unfold shapWeight
  rw [show n - (s - 1) - 1 = n - s from by omega]
  have hA : (s : ℚ) * ((s - 1).factorial : ℚ) = (s.factorial : ℚ) := by
    have h := Nat.mul_factorial_pred (show 0 < s by omega)
    exact_mod_cast h
  have hB : ((n - s : ℕ) : ℚ) * ((n - s - 1).factorial : ℚ) = ((n - s).factorial : ℚ) := by
    have h := Nat.mul_factorial_pred (show 0 < n - s by omega)
    exact_mod_cast h
  have e1 : (s : ℚ) * (((s - 1).factorial : ℚ) * ((n - s).factorial : ℚ) / (n.factorial : ℚ))
      = (s.factorial : ℚ) * ((n - s).factorial : ℚ) / (n.factorial : ℚ) := by
    rw [← hA]
    ring
  have e2 : ((n - s : ℕ) : ℚ) * ((s.factorial : ℚ) * ((n - s - 1).factorial : ℚ) / (n.factorial : ℚ))
      = (s.factorial : ℚ) * ((n - s).factorial : ℚ) / (n.factorial : ℚ) := by
    rw [← hB]
    ring
  rw [e1, e2, sub_self]

theorem shapley_coeff_univ (n : ℕ) (hn : 1 ≤ n) :
    (n : ℚ) * shapWeight n (n - 1) = 1 := by
  unfold shapWeight
  rw [show n - (n - 1) - 1 = 0 from by omega]
  have hA : (n : ℚ) * ((n - 1).factorial : ℚ) = (n.factorial : ℚ) := by
    have h := Nat.mul_factorial_pred (show 0 < n by omega)
    exact_mod_cast h
  rw [show (Nat.factorial 0 : ℚ) = 1 from by norm_num [Nat.factorial]]
  rw [mul_one, mul_div_assoc']
  rw [hA, div_self (factorial_cast_ne_zero n)]

theorem shapley_coeff_empty (n : ℕ) (hn : 1 ≤ n) :
    (n : ℚ) * shapWeight n 0 = 1 := by
  unfold shapWeight
  have hA : (n : ℚ) * ((n - 1).factorial : ℚ) = (n.factorial : ℚ) := by
    have h := Nat.mul_factorial_pred (show 0 < n by omega)
    exact_mod_cast h
  rw [show n - 0 - 1 = n - 1 from by omega]
  rw [show (Nat.factorial 0 : ℚ) = 1 from by norm_num [Nat.factorial]]
  rw [one_mul, mul_div_assoc']
  rw [hA, div_self (factorial_cast_ne_zero n)]

/-- Efficiency of the coalition-form Shapley formula used by
`exact_shapley`, for an arbitrary coalition value function `v`:
the values sum to `v(universe) − v(∅)`. -/
theorem shapley_formula_efficiency {n : ℕ} (hn : 1 ≤ n) (v : Finset (Fin n) → ℚ) :
    ∑ t : Fin n, ∑ C ∈ (Finset.univ.erase t).powerset,
        shapWeight n C.card * (v (insert t C) - v C)
      = v Finset.univ - v ∅ := by
  have hsplit :
      ∑ t : Fin n, ∑ C ∈ (Finset.univ.erase t).powerset,
          shapWeight n C.card * (v (insert t C) - v C)
        = (∑ t : Fin n, ∑ C ∈ (Finset.univ.erase t).powerset,
              shapWeight n C.card * v (insert t C))
          - ∑ t : Fin n, ∑ C ∈ (Finset.univ.erase t).powerset,
              shapWeight n C.card * v C := by
    rw [← Finset.sum_sub_distrib]
    apply Finset.sum_congr rfl
    intro t _
    rw [← Finset.sum_sub_distrib]
    apply Finset.sum_congr rfl
    intro C _
    ring
  rw [hsplit]
  have hA :
      ∑ t : Fin n, ∑ C ∈ (Finset.univ.erase t).powerset,
          shapWeight n C.card * v (insert t C)
        = ∑ S ∈ (Finset.univ : Finset (Fin n)).powerset,
            (S.card : ℚ) * (shapWeight n (S.card - 1) * v S) := by
    rw [sum_swap_erase (fun t C => shapWeight n C.card * v (insert t C))]
    have hstep :
        ∑ C ∈ (Finset.univ : Finset (Fin n)).powerset, ∑ t ∈ Cᶜ,
            shapWeight n C.card * v (insert t C)
          = ∑ C ∈ (Finset.univ : Finset (Fin n)).powerset, ∑ t ∈ Cᶜ,
              shapWeight n ((insert t C).card - 1) * v (insert t C) := by
      apply Finset.sum_congr rfl
      intro C _
      apply Finset.sum_congr rfl
      intro t ht
      rw [Finset.card_insert_of_not_mem (Finset.mem_compl.mp ht)]
      simp
    rw [hstep,
      sum_reindex_insert (fun S t => shapWeight n (S.card - 1) * v S)]
    apply Finset.sum_congr rfl
    intro S _
    rw [Finset.sum_const, nsmul_eq_mul]
  have hB :
      ∑ t : Fin n, ∑ C ∈ (Finset.univ.erase t).powerset,
          shapWeight n C.card * v C
        = ∑ C ∈ (Finset.univ : Finset (Fin n)).powerset,
            ((n - C.card : ℕ) : ℚ) * (shapWeight n C.card * v C) := by
    rw [sum_swap_erase (fun t C => shapWeight n C.card * v C)]
    apply Finset.sum_congr rfl
    intro C _
    rw [Finset.sum_const, nsmul_eq_mul, Finset.card_compl, Fintype.card_fin]
  rw [hA, hB, ← Finset.sum_sub_distrib]
  have hzero : ∀ S ∈ (Finset.univ : Finset (Fin n)).powerset,
      S ∉ ({∅, Finset.univ} : Finset (Finset (Fin n))) →
      (S.card : ℚ) * (shapWeight n (S.card - 1) * v S)
        - ((n - S.card : ℕ) : ℚ) * (shapWeight n S.card * v S) = 0 := by
    intro S hS hSnot
    simp only [Finset.mem_insert, Finset.mem_singleton] at hSnot
    push_neg at hSnot
    have h1 : 1 ≤ S.card := by
      rcases Finset.eq_empty_or_nonempty S with h | h
      · exact absurd h hSnot.1
      · exact Finset.card_pos.mpr h
    have h2 : S.card ≤ n - 1 := by
      have hsub : S ⊂ Finset.univ :=
        Finset.ssubset_iff_subset_ne.mpr ⟨Finset.subset_univ S, hSnot.2⟩
      have := Finset.card_lt_card hsub
      rw [Finset.card_univ, Fintype.card_fin] at this
      omega
    have hc := shapley_coeff_mid n S.card h1 h2 hn
    calc (S.card : ℚ) * (shapWeight n (S.card - 1) * v S)
          - ((n - S.card : ℕ) : ℚ) * (shapWeight n S.card * v S)
        = ((S.card : ℚ) * shapWeight n (S.card - 1)
            - ((n - S.card : ℕ) : ℚ) * shapWeight n S.card) * v S := by ring
      _ = 0 := by rw [hc, zero_mul]
  have hpair : ({∅, Finset.univ} : Finset (Finset (Fin n)))
      ⊆ (Finset.univ : Finset (Fin n)).powerset := by
    intro S hS
    simp only [Finset.mem_insert, Finset.mem_singleton] at hS
    rcases hS with h | h <;> subst h <;>
      simp [Finset.mem_powerset, Finset.empty_subset, Finset.subset_univ]
  rw [← Finset.sum_subset hpair (fun S hS hSnot => hzero S hS hSnot)]
  have hne : (∅ : Finset (Fin n)) ≠ Finset.univ := by
    have hnn : (Finset.univ : Finset (Fin n)).Nonempty :=
      ⟨⟨0, by omega⟩, Finset.mem_univ _⟩
    exact fun hcon => by
      rw [← hcon] at hnn
      exact Finset.not_nonempty_empty hnn
  rw [Finset.sum_pair hne]
  have hempty : ((∅ : Finset (Fin n)).card : ℚ) * (shapWeight n ((∅ : Finset (Fin n)).card - 1) * v ∅)
      - ((n - (∅ : Finset (Fin n)).card : ℕ) : ℚ) * (shapWeight n (∅ : Finset (Fin n)).card * v ∅)
      = - v ∅ := by
    rw [Finset.card_empty]
    simp only [Nat.cast_zero, zero_mul, Nat.sub_zero, zero_sub]
    have := shapley_coeff_empty n hn
    calc -(((n : ℕ) : ℚ) * (shapWeight n 0 * v ∅))
        = -(((n : ℚ) * shapWeight n 0) * v ∅) := by ring
      _ = - (1 * v ∅) := by rw [this]
      _ = - v ∅ := by ring
  have huniv : (((Finset.univ : Finset (Fin n)).card : ℚ))
        * (shapWeight n ((Finset.univ : Finset (Fin n)).card - 1) * v Finset.univ)
      - ((n - (Finset.univ : Finset (Fin n)).card : ℕ) : ℚ)
        * (shapWeight n (Finset.univ : Finset (Fin n)).card * v Finset.univ)
      = v Finset.univ := by
    rw [Finset.card_univ, Fintype.card_fin]
    rw [show (n - n : ℕ) = 0 from by omega]
    simp only [Nat.cast_zero, zero_mul, sub_zero]
    have := shapley_coeff_univ n hn
    calc ((n : ℕ) : ℚ) * (shapWeight n (n - 1) * v Finset.univ)
        = ((n : ℚ) * shapWeight n (n - 1)) * v Finset.univ := by ring
      _ = 1 * v Finset.univ := by rw [this]
      _ = v Finset.univ := by ring
  rw [hempty, huniv]
  ring

end Shap

namespace Shap

theorem vGame_univ {n : ℕ} (support_sets : List (Finset (Fin n)))
    (hall : ∀ S ∈ support_sets, S.Nonempty) :
    vGame support_sets Finset.univ = 1 := by
  unfold vGame
  rw [if_pos]
  intro sm hsm
  obtain ⟨x, hx⟩ := hall sm hsm
  exact ⟨x, Finset.mem_inter.mpr ⟨Finset.mem_univ x, hx⟩⟩

theorem vGame_empty {n : ℕ} (support_sets : List (Finset (Fin n)))
    (hne : support_sets ≠ []) :
    vGame support_sets ∅ = 0 := by
  unfold vGame
  rw [if_neg]
  intro hcon
  obtain ⟨S, hS⟩ := List.exists_mem_of_ne_nil _ hne
  obtain ⟨x, hx⟩ := hcon S hS
  simp at hx

/-- A non-empty support set over `Fin n` forces `n ≥ 1`. -/
theorem n_pos_of_supports {n : ℕ} (support_sets : List (Finset (Fin n)))
    (hne : support_sets ≠ []) (hall : ∀ S ∈ support_sets, S.Nonempty) : 1 ≤ n := by
  obtain ⟨S, hS⟩ := List.exists_mem_of_ne_nil _ hne
  obtain ⟨x, _⟩ := hall S hS
  exact x.pos

/-- Exact-mode efficiency: the Shapley values of `exact_shapley` sum to
`v(universe) = 1` exactly. -/
theorem exact_shapley_sum {n : ℕ} (support_sets : List (Finset (Fin n)))
    (hne : support_sets ≠ []) (hall : ∀ S ∈ support_sets, S.Nonempty) :
    ∑ t : Fin n, exact_shapley support_sets t = 1 := by
  unfold exact_shapley
  rw [shapley_formula_efficiency (n_pos_of_supports support_sets hne hall)
    (vGame support_sets)]
  rw [vGame_univ support_sets hall, vGame_empty support_sets hne]
  ring

-- ## The Monte-Carlo sampling loop

/-- If the walk exhausts a permutation without crediting anyone, the final
coalition does not hit every support (given the starting one did not). -/
theorem walkCredit_none {n : ℕ} (support_sets : List (Finset (Fin n)))
    (p : List (Fin n)) (C : Finset (Fin n))
    (hstart : ¬ ∀ sm ∈ support_sets, (C ∩ sm).Nonempty)
    (hwalk : walkCredit support_sets C p = none) :
    ¬ ∀ sm ∈ support_sets, ((C ∪ p.toFinset) ∩ sm).Nonempty := by
  induction p generalizing C with
  | nil => simpa using hstart
  | cons idx rest ih =>
      unfold walkCredit at hwalk
      by_cases hhit : ∀ sm ∈ support_sets, ((insert idx C) ∩ sm).Nonempty
      · rw [if_pos hhit] at hwalk
        exact absurd hwalk (by simp)
      · rw [if_neg hhit] at hwalk
        have := ih (insert idx C) hhit hwalk
        intro hcon
        apply this
        intro sm hsm
        obtain ⟨x, hx⟩ := hcon sm hsm
        refine ⟨x, ?_⟩
        rw [Finset.mem_inter] at hx ⊢
        refine ⟨?_, hx.2⟩
        have := hx.1
        rw [Finset.mem_union] at this
        rcases this with h | h
        · exact Finset.mem_union_left _ (Finset.mem_insert_of_mem h)
        · rw [List.mem_toFinset, List.mem_cons] at h
          rcases h with h | h
          · exact Finset.mem_union_left _ (h ▸ Finset.mem_insert_self idx C)
          · exact Finset.mem_union_right _ (List.mem_toFinset.mpr h)

/-- Every sampled permutation that covers the whole universe credits
exactly one element: the walk reaches `v = 1` before exhausting the
permutation. -/
theorem walkCredit_total {n : ℕ} (support_sets : List (Finset (Fin n)))
    (hne : support_sets ≠ []) (hall : ∀ S ∈ support_sets, S.Nonempty)
    (p : List (Fin n)) (hcover : ∀ x : Fin n, x ∈ p) :
    ∃ t, walkCredit support_sets ∅ p = some t := by
  cases hwalk : walkCredit support_sets ∅ p with
  | some t => exact ⟨t, rfl⟩
  | none =>
      exfalso
      have hstart : ¬ ∀ sm ∈ support_sets, ((∅ : Finset (Fin n)) ∩ sm).Nonempty := by
        intro hcon
        obtain ⟨S, hS⟩ := List.exists_mem_of_ne_nil _ hne
        obtain ⟨x, hx⟩ := hcon S hS
        simp at hx
      have := walkCredit_none support_sets p ∅ hstart hwalk
      apply this
      intro sm hsm
      obtain ⟨x, hx⟩ := hall sm hsm
      refine ⟨x, Finset.mem_inter.mpr ⟨?_, hx⟩⟩
      rw [Finset.empty_union, List.mem_toFinset]
      exact hcover x

/-- The counts array sums to the number of samples whose walk credited
some element. -/
theorem counts_sum {n : ℕ} (support_sets : List (Finset (Fin n)))
    (perms : List (List (Fin n))) :
    ∑ t : Fin n, counts support_sets perms t
      = (perms.filter (fun p => (walkCredit support_sets ∅ p).isSome)).length := by
  unfold counts
  suffices h : ∀ (c : Fin n → ℕ),
      ∑ t : Fin n, (perms.foldl
        (fun c p =>
          match walkCredit support_sets ∅ p with
          | some t => Function.update c t (c t + 1)
          | none => c)
        c) t
      = (∑ t : Fin n, c t)
        + (perms.filter (fun p => (walkCredit support_sets ∅ p).isSome)).length by
    simpa using h (fun _ => 0)
  induction perms with
  | nil => intro c; simp
  | cons p rest ih =>
      intro c
      rw [List.foldl_cons, List.filter_cons]
      cases hw : walkCredit support_sets ∅ p with
      | none =>
          rw [ih]
          simp [hw]
      | some t0 =>
          rw [ih]
          have hupd : ∑ t : Fin n, Function.update c t0 (c t0 + 1) t
              = (∑ t : Fin n, c t) + 1 := by
            rw [Finset.sum_update_of_mem (Finset.mem_univ t0),
              Finset.sdiff_singleton_eq_erase,
              ← Finset.sum_erase_add _ c (Finset.mem_univ t0)]
            ring
          rw [hupd]
          simp [hw]
          omega

/-- Each estimate of `approx_shapley` is nonnegative. -/
theorem approx_shapley_nonneg {n : ℕ} (support_sets : List (Finset (Fin n)))
    (perms : List (List (Fin n))) (t : Fin n) :
    0 ≤ approx_shapley support_sets perms t := by
  unfold approx_shapley
  positivity

/-- With at least one sample and every sampled permutation covering the
universe, the Monte-Carlo estimates sum to exactly 1. -/
theorem approx_shapley_sum {n : ℕ} (support_sets : List (Finset (Fin n)))
    (hne : support_sets ≠ []) (hall : ∀ S ∈ support_sets, S.Nonempty)
    (perms : List (List (Fin n))) (hp : perms ≠ [])
    (hcover : ∀ p ∈ perms, ∀ x : Fin n, x ∈ p) :
    ∑ t : Fin n, approx_shapley support_sets perms t = 1 := by
  unfold approx_shapley
  rw [← Finset.sum_div]
  have hfilter : perms.filter (fun p => (walkCredit support_sets ∅ p).isSome) = perms := by
    apply List.filter_eq_self.mpr
    intro p hp'
    obtain ⟨t, ht⟩ := walkCredit_total support_sets hne hall p (hcover p hp')
    rw [ht]
    rfl
  have hsum : ∑ t : Fin n, (counts support_sets perms t : ℚ) = (perms.length : ℚ) := by
    have := counts_sum support_sets perms
    rw [hfilter] at this
    exact_mod_cast this
  rw [hsum, div_self]
  have : 0 < perms.length := List.length_pos.mpr hp
  positivity

end Shap

namespace Icqa

/-- One support-set row of an answer, as stored in the support parquet:
`(support_id, tuple identity)`. -/
abbrev SupportRow : Type := ℕ × TupleKey

/-- One tuple-measure row: `(tuple identity, measure kind, value)`. -/
abbrev MeasureRow : Type := TupleKey × String × ℚ

/-- The four measure kinds (`MEASURES` in all three aggregator scripts). -/
def MEASURES : List String := ["CBM", "CIM", "PIM", "RIM"]

/-- `[m.lower() for m in MEASURES]`: the lowercase suffixes used to build
the per-measure output column names. -/
def MEASURES_LOWER : List String := ["cbm", "cim", "pim", "rim"]

/-- `compute_icqa_prov.py` `main`, normal branch: left-merge the support
rows with the measure rows on the tuple identity (`validate="m:m"`), drop
rows with no measure match, and sum `value` per answer and measure kind.
Each occurrence of a tuple across the answer's witness sets contributes once
per matching measure row. -/
def icqa_prov (support_rows : List SupportRow) (tm : List MeasureRow)
    (kind : String) : ℚ :=
  (support_rows.map (fun r =>
    ((tm.filter (fun mr => decide (mr.1 = r.2 ∧ mr.2.1 = kind))).map
      (fun mr => mr.2.2)).sum)).sum

/-- `compute_icqa_prov.py` lines 183-213, the `measured.empty` branch: the
output row starts from the seven meta keys, and the
`for m in MEASURES: icqa_val = 0.0` loop only rebinds the local `icqa_val`
without ever writing into `out_row`, so the emitted row keeps exactly the
meta keys — the four `icqa_prov_*` score keys are absent. -/
def prov_no_match_row_keys : List String :=
  MEASURES.foldl (fun row _m => row)
    ["scale", "subset", "ratio", "seed", "qname", "answer_id", "answervalue"]

/-- `compute_icqa_prov.py` lines 241-264, the normal branch: the loop body
`out_row[f"icqa_{AGGREGATOR}_{m.lower()}"] = icqa_val` adds one score key
per measure kind. -/
def prov_normal_row_keys : List String :=
  MEASURES_LOWER.foldl (fun row m => row ++ ["icqa_prov_" ++ m])
    ["scale", "subset", "ratio", "seed", "qname", "answer_id", "answervalue"]

/-- `compute_icqa_resp.py` `compute_resp_for_query`, one answer: `0` when
the universe or the support family is empty, `0` when no measure rows match
the answer's tuples, otherwise `Σ ρ(t)·value` over the matching measure rows
of the requested kind (the merge maps each measure row to the universe index
of its tuple). -/
def icqa_resp_answer {n : ℕ} (support_sets : List (Finset (Fin n)))
    (tm_rows : List (Fin n × String × ℚ)) (kind : String) : ℚ :=
  if n = 0 ∨ support_sets = [] then 0
  else if tm_rows = [] then 0
  else ((tm_rows.filter (fun r => decide (r.2.1 = kind))).map
    (fun r => Resp.resp_rho support_sets r.1 * r.2.2)).sum

/-- `compute_icqa_shap.py` `N_EXACT`: universes of at most 14 elements use
exact enumeration, larger ones Monte-Carlo sampling. -/
def N_EXACT : ℕ := 14

/-- `compute_icqa_shap.py` `compute_icqa_shap_for_answer`, one answer: `0`
when the universe or the support family is empty, else Shapley weights
(exact for `n ≤ N_EXACT`, sampled otherwise), then `0` when no measure rows
match, otherwise `Σ φ(t)·value` over matching measure rows of the requested
kind. -/
def icqa_shap_answer {n : ℕ} (support_sets : List (Finset (Fin n)))
    (perms : List (List (Fin n))) (tm_rows : List (Fin n × String × ℚ))
    (kind : String) : ℚ :=
  if n = 0 ∨ support_sets = [] then 0
  else
    let phi : Fin n → ℚ :=
      if n ≤ N_EXACT then Shap.exact_shapley support_sets
      else Shap.approx_shapley support_sets perms
    if tm_rows = [] then 0
    else ((tm_rows.filter (fun r => decide (r.2.1 = kind))).map
      (fun r => phi r.1 * r.2.2)).sum

-- ## Degenerate-case behaviour of the three aggregators

theorem icqa_resp_answer_no_supports {n : ℕ}
    (tm_rows : List (Fin n × String × ℚ)) (kind : String) :
    icqa_resp_answer [] tm_rows kind = 0 := by
  unfold icqa_resp_answer
  rw [if_pos (Or.inr rfl)]

theorem icqa_resp_answer_no_measures {n : ℕ}
    (support_sets : List (Finset (Fin n))) (kind : String) :
    icqa_resp_answer support_sets [] kind = 0 := by
  unfold icqa_resp_answer
  by_cases h : n = 0 ∨ support_sets = []
  · rw [if_pos h]
  · rw [if_neg h, if_pos rfl]

theorem icqa_shap_answer_no_supports {n : ℕ} (perms : List (List (Fin n)))
    (tm_rows : List (Fin n × String × ℚ)) (kind : String) :
    icqa_shap_answer [] perms tm_rows kind = 0 := by
  unfold icqa_shap_answer
  rw [if_pos (Or.inr rfl)]

theorem icqa_shap_answer_no_measures {n : ℕ}
    (support_sets : List (Finset (Fin n))) (perms : List (List (Fin n)))
    (kind : String) :
    icqa_shap_answer support_sets perms [] kind = 0 := by
  unfold icqa_shap_answer
  by_cases h : n = 0 ∨ support_sets = []
  · rw [if_pos h]
  · rw [if_neg h]
    simp

end Icqa

namespace HittingSet

theorem nat_find_eq {p q : ℕ → Prop} [DecidablePred p] [DecidablePred q]
    (hp : ∃ k, p k) (hq : ∃ k, q k) (h : ∀ k, p k ↔ q k) :
    Nat.find hp = Nat.find hq := by
  apply le_antisymm
  · exact Nat.find_min' hp ((h _).mpr (Nat.find_spec hq))
  · exact Nat.find_min' hq ((h _).mp (Nat.find_spec hp))

theorem edge_nodes_skip_empty {α : Type} [DecidableEq α]
    (es1 es2 : List (Finset α)) :
    edge_nodes (es1 ++ (∅ : Finset α) :: es2) = edge_nodes (es1 ++ es2) := by
  ext x
  rw [edge_nodes_spec, edge_nodes_spec]
  constructor
  · rintro ⟨e, he, hx⟩
    rcases List.mem_append.mp he with h | h
    · exact ⟨e, List.mem_append.mpr (Or.inl h), hx⟩
    · rcases List.mem_cons.mp h with h | h
      · subst h; simp at hx
      · exact ⟨e, List.mem_append.mpr (Or.inr h), hx⟩
  · rintro ⟨e, he, hx⟩
    rcases List.mem_append.mp he with h | h
    · exact ⟨e, List.mem_append.mpr (Or.inl h), hx⟩
    · exact ⟨e, List.mem_append.mpr (Or.inr (List.mem_cons_of_mem _ h)), hx⟩

theorem cpsat_feasible_skip_empty {α : Type} [DecidableEq α]
    (es1 es2 : List (Finset α)) (H : Finset α) :
    cpsat_feasible (es1 ++ (∅ : Finset α) :: es2) H ↔ cpsat_feasible (es1 ++ es2) H := by
  unfold cpsat_feasible
  constructor
  · intro h e he hne
    rcases List.mem_append.mp he with h1 | h1
    · exact h e (List.mem_append.mpr (Or.inl h1)) hne
    · exact h e (List.mem_append.mpr (Or.inr (List.mem_cons_of_mem _ h1))) hne
  · intro h e he hne
    rcases List.mem_append.mp he with h1 | h1
    · exact h e (List.mem_append.mpr (Or.inl h1)) hne
    · rcases List.mem_cons.mp h1 with h1 | h1
      · subst h1
        exact absurd hne (by simp)
      · exact h e (List.mem_append.mpr (Or.inr h1)) hne

/-- The CP-SAT model silently ignores an empty edge: the minimal hitting-set
size of a family with an empty edge inserted anywhere equals the size for
the family without it. -/
theorem solve_min_skip_empty {α : Type} [DecidableEq α]
    (es1 es2 : List (Finset α)) :
    solve_min_hitting_set_size_cpsat (es1 ++ (∅ : Finset α) :: es2)
      = solve_min_hitting_set_size_cpsat (es1 ++ es2) := by
  unfold solve_min_hitting_set_size_cpsat
  have hne : es1 ++ (∅ : Finset α) :: es2 ≠ [] := by simp
  rw [if_neg hne]
  by_cases h2 : es1 ++ es2 = []
  · rw [if_pos h2]
    rw [Nat.find_eq_zero]
    refine ⟨∅, Finset.mem_powerset.mpr (Finset.empty_subset _), Nat.le_refl 0, ?_⟩
    rw [cpsat_feasible_skip_empty, h2]
    intro e he
    exact absurd he (List.not_mem_nil e)
  · rw [if_neg h2]
    apply nat_find_eq
    intro k
    constructor
    · rintro ⟨H, hH, hcard, hfeas⟩
      exact ⟨H, by rwa [edge_nodes_skip_empty] at hH, hcard,
        (cpsat_feasible_skip_empty es1 es2 H).mp hfeas⟩
    · rintro ⟨H, hH, hcard, hfeas⟩
      exact ⟨H, by rwa [edge_nodes_skip_empty], hcard,
        (cpsat_feasible_skip_empty es1 es2 H).mpr hfeas⟩

end HittingSet

namespace Rim

/-- The hypergraph builder silently skips an empty MIS: inserting one
anywhere leaves edges and universe unchanged. -/
theorem build_hypergraph_skip_empty (l1 l2 : Measures.MisList) :
    build_hypergraph_from_mis (l1 ++ [] :: l2) = build_hypergraph_from_mis (l1 ++ l2) := by
  unfold build_hypergraph_from_mis
  rw [List.foldl_append, List.foldl_append, List.foldl_cons]
  congr 1

end Rim

namespace Greedy

open HittingSet

theorem greedy_select_length (fuel : ℕ) (es : List (Finset ℕ)) :
    (greedy_select fuel es).length ≤ fuel := by
  induction fuel generalizing es with
  | zero => simp [greedy_select]
  | succ fuel ih =>
      unfold greedy_select
      by_cases hes : es = []
      · simp [hes]
      · rw [if_neg hes]
        cases pickBest es with
        | none => simp
        | some u =>
            simp only [List.length_cons]
            exact Nat.succ_le_succ (ih _)

/-- Main greedy guarantee: under non-empty edges, the greedy size is the
cardinality of an explicit hitting set, which is a subset of the universe. -/
theorem greedy_main (edges : List (Finset ℕ)) (hall : ∀ e ∈ edges, e.Nonempty) :
    greedy_hitting_set_size edges ≤ (edge_nodes edges).card
    ∧ ∃ H : Finset ℕ, H.card = greedy_hitting_set_size edges
        ∧ ∀ e ∈ edges, (H ∩ e).Nonempty := by
  have hfil : edges.filter (fun e => decide e.Nonempty) = edges := by
    apply List.filter_eq_self.mpr
    intro e he
    simpa using hall e he
  have hsize : greedy_hitting_set_size edges
      = (greedy_select edges.length edges).length := by
    unfold greedy_hitting_set_size
    rw [hfil]
  have hnd : (greedy_select edges.length edges).Nodup :=
    greedy_select_nodup edges.length edges
  have hsub : (greedy_select edges.length edges).toFinset ⊆ edge_nodes edges := by
    intro u hu
    exact greedy_select_subset edges.length edges u (List.mem_toFinset.mp hu)
  have hcard : (greedy_select edges.length edges).toFinset.card
      = (greedy_select edges.length edges).length :=
    List.toFinset_card_of_nodup hnd
  constructor
  · rw [hsize, ← hcard]
    exact Finset.card_le_card hsub
  · refine ⟨(greedy_select edges.length edges).toFinset, by rw [hcard, hsize], ?_⟩
    intro e he
    obtain ⟨u, hu, hue⟩ :=
      greedy_select_hits edges.length edges (le_refl _) hall e he
    exact ⟨u, Finset.mem_inter.mpr ⟨List.mem_toFinset.mpr hu, hue⟩⟩

end Greedy

-- ## Claim theorems

/-- C1: for every scoring unit whose support-set family is non-empty and
consists only of non-empty subsets of the universe, the Shapley values sum
over the universe to `v(full universe) = 1`: exactly in exact mode
(`exact_shapley`, hence certainly within `1e-9`), and in approximate mode
(`approx_shapley`) the Monte-Carlo estimates — here with the sampled
permutations explicit and at least one sample — also sum to exactly `1`,
which is within any sampling noise. -/
theorem C1_shapley_sum_one {n : ℕ} (support_sets : List (Finset (Fin n)))
    (hne : support_sets ≠ []) (hall : ∀ S ∈ support_sets, S.Nonempty)
    (perms : List (List (Fin n))) (hp : perms ≠ [])
    (hperm : ∀ p ∈ perms, p.Perm (List.finRange n)) :
    ∑ t : Fin n, Shap.exact_shapley support_sets t = 1
    ∧ ∑ t : Fin n, Shap.approx_shapley support_sets perms t = 1 := by
  refine ⟨Shap.exact_shapley_sum support_sets hne hall, ?_⟩
  apply Shap.approx_shapley_sum support_sets hne hall perms hp
  intro p hp' x
  exact (List.Perm.mem_iff (hperm p hp')).mpr (List.mem_finRange x)

theorem C1_shapley_sum_one_witness :
    (([{0}] : List (Finset (Fin 1))) ≠ []
      ∧ (∀ S ∈ ([{0}] : List (Finset (Fin 1))), S.Nonempty)
      ∧ ([[0]] : List (List (Fin 1))) ≠ []
      ∧ (∀ p ∈ ([[0]] : List (List (Fin 1))), p.Perm (List.finRange 1)))
    ∧ (∑ t : Fin 1, Shap.exact_shapley [{0}] t = 1
      ∧ ∑ t : Fin 1, Shap.approx_shapley [{0}] [[0]] t = 1) :=
  ⟨⟨by decide, by decide, by decide, by decide⟩,
    C1_shapley_sum_one [{0}] (by decide) (by decide) [[0]] (by decide) (by decide)⟩

/-- C2 counterexample: an input family containing an empty witness set is
NOT rejected — `build_hypergraph_from_mis` returns normally, producing the
very same hypergraph as the family without the empty witness set; the empty
edge is silently dropped from both the edge list and the universe. -/
theorem C2_counterexample :
    Rim.build_hypergraph_from_mis [[], [("lineitem", [1])]]
      = Rim.build_hypergraph_from_mis [[("lineitem", [1])]]
    ∧ (Rim.build_hypergraph_from_mis [[], [("lineitem", [1])]]).1
      = [{("lineitem", [1])}] :=
  ⟨rfl, rfl⟩

/-- C2 (amended): an empty witness set is silently skipped, not rejected:
the hypergraph builder drops it (`if not e: continue`) leaving edges and
universe unchanged, and the CP-SAT hitting-set model ignores it (emits no
constraint for it, `if e:` guard), leaving the minimal hitting-set size
unchanged. -/
theorem C2_amended (l1 l2 : Measures.MisList) (es1 es2 : List (Finset ℕ)) :
    Rim.build_hypergraph_from_mis (l1 ++ [] :: l2)
      = Rim.build_hypergraph_from_mis (l1 ++ l2)
    ∧ HittingSet.solve_min_hitting_set_size_cpsat (es1 ++ (∅ : Finset ℕ) :: es2)
      = HittingSet.solve_min_hitting_set_size_cpsat (es1 ++ es2) :=
  ⟨Rim.build_hypergraph_skip_empty l1 l2, HittingSet.solve_min_skip_empty es1 es2⟩

/-- C3 counterexample: for the scoring unit with universe `{0, 1}` and the
single witness set `{0, 1}`, the code gives `ρ(0) = 1` (every witness set
contains `0`, so `S⁻ᵗ` is empty and `h*(0) = 0`), yet `0` is NOT the sole
element of any witness set — refuting the claimed equivalence
"`ρ(t) = 1` iff `t` is the sole element of some witness set". -/
theorem C3_counterexample :
    Resp.resp_rho ([{0, 1}] : List (Finset (Fin 2))) 0 = 1
    ∧ ¬ ∃ S ∈ ([{0, 1}] : List (Finset (Fin 2))), S = ({0} : Finset (Fin 2)) :=
  ⟨by norm_num [Resp.resp_rho, Resp.min_hitting_set_size_for_t], by decide⟩

/-- C3 (amended): for every scoring unit with a non-empty family of
non-empty witness sets and every element `t` of its universe,
`ρ(t) = 1/(1 + h*(t)) ∈ (0, 1]`, and `ρ(t) = 1` iff EVERY witness set
contains `t` (equivalently, the filtered family `S⁻ᵗ` is empty). -/
theorem C3_amended {n : ℕ} (support_sets : List (Finset (Fin n))) (t : Fin n)
    (hne : support_sets ≠ []) (hall : ∀ S ∈ support_sets, S.Nonempty) :
    0 < Resp.resp_rho support_sets t
    ∧ Resp.resp_rho support_sets t ≤ 1
    ∧ (Resp.resp_rho support_sets t = 1 ↔ ∀ S ∈ support_sets, t ∈ S) :=
  ⟨Resp.resp_rho_pos support_sets t, Resp.resp_rho_le_one support_sets t,
    Resp.resp_rho_eq_one_iff support_sets t hne hall⟩

theorem C3_amended_witness :
    (([{0}] : List (Finset (Fin 1))) ≠ []
      ∧ (∀ S ∈ ([{0}] : List (Finset (Fin 1))), S.Nonempty))
    ∧ (0 < Resp.resp_rho ([{0}] : List (Finset (Fin 1))) 0
      ∧ Resp.resp_rho ([{0}] : List (Finset (Fin 1))) 0 ≤ 1
      ∧ (Resp.resp_rho ([{0}] : List (Finset (Fin 1))) 0 = 1
          ↔ ∀ S ∈ ([{0}] : List (Finset (Fin 1))), (0 : Fin 1) ∈ S)) :=
  ⟨⟨by decide, by decide⟩, C3_amended [{0}] 0 (by decide) (by decide)⟩

/-- C4: for every constraint whose MIS list is non-empty and yields a
non-empty universe, the per-constraint RIM contributions returned by
`compute_rim_for_dc` (the values `ρ'(t)·m` over the constraint's universe)
sum to exactly `m`, the constraint's witness-set count. -/
theorem C4_rim_contributions_sum (mis_list : Measures.MisList)
    (hne : mis_list ≠ [])
    (huniv : (Rim.build_hypergraph_from_mis mis_list).2.Nonempty) :
    ∑ t ∈ (Rim.compute_rim_for_dc mis_list).1, (Rim.compute_rim_for_dc mis_list).2 t
      = (mis_list.length : ℚ) :=
  Rim.compute_rim_sum mis_list hne huniv

theorem C4_rim_contributions_sum_witness :
    (([[("lineitem", [1])]] : Measures.MisList) ≠ []
      ∧ (Rim.build_hypergraph_from_mis [[("lineitem", [1])]]).2.Nonempty)
    ∧ ∑ t ∈ (Rim.compute_rim_for_dc [[("lineitem", [1])]]).1,
        (Rim.compute_rim_for_dc [[("lineitem", [1])]]).2 t
      = (([[("lineitem", [1])]] : Measures.MisList).length : ℚ) :=
  ⟨⟨by decide, by decide⟩, C4_rim_contributions_sum [[("lineitem", [1])]] (by decide) (by decide)⟩

/-- C5: the CBM score of a tuple equals the number of constraints in whose
MIS family the tuple occurs at least once — a flat `+1` per constraint with
an existing MIS file containing the tuple, irrespective of how many of that
constraint's witness sets contain it. -/
theorem C5_cbm_flat_count (mis_dir : Measures.MisDir) (dcs : List String)
    (t : TupleKey) :
    Measures.compute_cbm mis_dir dcs t
      = ((dcs.filter (fun dc => decide (Measures.occurs_in_dc mis_dir dc t))).length : ℚ) :=
  Measures.compute_cbm_closed mis_dir dcs t

/-- C6: the CIM score of tuple `t = (rel, pk)` is
`Σ_{dc ∈ dcs} k·w(dc, rel)` with `k` the number of occurrences of `t`
across that DC's witness sets (no deduplication); `compute_cim` is total
(never fails), and unknown constraints or missing weight-table entries
contribute `0` (`w(dc, rel) = 0` in the lookup model, and a DC with a
missing MIS file contributes an occurrence count of `0`). -/
theorem C6_cim_occurrence_weighted (mis_dir : Measures.MisDir) (dcs : List String)
    (t : TupleKey) :
    Measures.compute_cim mis_dir dcs t
      = (dcs.map (fun dc =>
          (Measures.occ_count mis_dir dc t : ℚ) * Measures.cim_w dc t.1)).sum :=
  Measures.compute_cim_closed mis_dir dcs t

/-- C7: the claim fails for the provenance aggregator.  The responsibility
and Shapley aggregators do report `0` for an answer with no witness sets or
with no measure-table matches; but the provenance script's
`measured.empty` branch emits a row WITHOUT the `icqa_prov_*` score keys
(the loop computes `icqa_val = 0.0` and never stores it), so the score is
omitted, not reported as `0` — contradicting the adjacent comment and log
message ("all ICQA = 0 for this query"). -/
theorem C7_degenerate_reporting :
    ("icqa_prov_cbm" ∈ Icqa.prov_normal_row_keys
      ∧ "icqa_prov_cbm" ∉ Icqa.prov_no_match_row_keys)
    ∧ (∀ (n : ℕ) (tm_rows : List (Fin n × String × ℚ)) (kind : String),
        Icqa.icqa_resp_answer [] tm_rows kind = 0)
    ∧ (∀ (n : ℕ) (support_sets : List (Finset (Fin n))) (kind : String),
        Icqa.icqa_resp_answer support_sets [] kind = 0)
    ∧ (∀ (n : ℕ) (perms : List (List (Fin n)))
        (tm_rows : List (Fin n × String × ℚ)) (kind : String),
        Icqa.icqa_shap_answer [] perms tm_rows kind = 0)
    ∧ (∀ (n : ℕ) (support_sets : List (Finset (Fin n)))
        (perms : List (List (Fin n))) (kind : String),
        Icqa.icqa_shap_answer support_sets perms [] kind = 0) :=
  ⟨⟨by decide, by decide⟩,
    fun n tm_rows kind => Icqa.icqa_resp_answer_no_supports tm_rows kind,
    fun n support_sets kind => Icqa.icqa_resp_answer_no_measures support_sets kind,
    fun n perms tm_rows kind => Icqa.icqa_shap_answer_no_supports perms tm_rows kind,
    fun n support_sets perms kind => Icqa.icqa_shap_answer_no_measures support_sets perms kind⟩

/-- C8: the provenance sum counts a tuple's measure value once per
occurrence across the answer's witness sets (no deduplication), so it is
linear in witness-set multiplicity: appending an exact copy of the witness
set with id `sid` (under a fresh id `sid'`) adds that witness set's
contribution once more — the two copies together contribute exactly twice
the single contribution. -/
theorem C8_prov_multiplicity_linear (support_rows : List Icqa.SupportRow)
    (tm : List Icqa.MeasureRow) (kind : String) (sid sid' : ℕ) :
    Icqa.icqa_prov
        (support_rows
          ++ (support_rows.filter (fun r => decide (r.1 = sid))).map
              (fun r => (sid', r.2)))
        tm kind
      = Icqa.icqa_prov support_rows tm kind
        + Icqa.icqa_prov (support_rows.filter (fun r => decide (r.1 = sid))) tm kind := by
  unfold Icqa.icqa_prov
  rw [List.map_append, List.sum_append, List.map_map]
  congr 1

/-- C9: for every list of non-empty edges over a finite universe,
`greedy_hitting_set_size` terminates (it is a total function) and returns a
(non-negative, being an `ℕ`) integer `k` at most the universe size, for
which an explicit hitting set of size `k` exists — so `k` is an upper bound
on the minimal hitting-set size; and it returns `0` on the empty edge
list. -/
theorem C9_greedy_upper_bound (edges : List (Finset ℕ))
    (hall : ∀ e ∈ edges, e.Nonempty) :
    Greedy.greedy_hitting_set_size edges ≤ (HittingSet.edge_nodes edges).card
    ∧ (∃ H : Finset ℕ, H.card = Greedy.greedy_hitting_set_size edges
        ∧ ∀ e ∈ edges, (H ∩ e).Nonempty)
    ∧ Greedy.greedy_hitting_set_size [] = 0 :=
  ⟨(Greedy.greedy_main edges hall).1, (Greedy.greedy_main edges hall).2, rfl⟩

theorem C9_greedy_upper_bound_witness :
    (∀ e ∈ ([{0, 1}, {1, 2}] : List (Finset ℕ)), e.Nonempty)
    ∧ (Greedy.greedy_hitting_set_size [{0, 1}, {1, 2}]
        ≤ (HittingSet.edge_nodes [{0, 1}, {1, 2}]).card
      ∧ (∃ H : Finset ℕ, H.card = Greedy.greedy_hitting_set_size [{0, 1}, {1, 2}]
          ∧ ∀ e ∈ ([{0, 1}, {1, 2}] : List (Finset ℕ)), (H ∩ e).Nonempty)
      ∧ Greedy.greedy_hitting_set_size [] = 0) :=
  ⟨by decide, C9_greedy_upper_bound [{0, 1}, {1, 2}] (by decide)⟩

/-- C10 counterexample: with sample count `0` (no permutations drawn) the
estimates do NOT sum to 1 — `counts` is identically zero and
`phi = counts / 0` vanishes (the `numpy` original would produce `0/0`
NaN entries there, equally failing the claimed identity), so the claim's
"for any sample count" fails at `num_samples = 0`. -/
theorem C10_counterexample :
    ¬ (∑ t : Fin 1, Shap.approx_shapley ([{0}] : List (Finset (Fin 1))) [] t = 1) := by
  have h : ∑ t : Fin 1, Shap.approx_shapley ([{0}] : List (Finset (Fin 1))) [] t = 0 := by
    simp [Shap.approx_shapley, Shap.counts]
  rw [h]
  norm_num

/-- C10 (amended): for every `n ≥ 1` (forced by the non-empty supports),
every non-empty family of non-empty support sets, and every non-empty list
of sampled full permutations, each sampled permutation credits exactly one
element (the walk always reaches `v = 1` before the permutation is
exhausted), the estimates are all nonnegative, and they sum to exactly 1 —
for any sample count ≥ 1 and any random draws. -/
theorem C10_amended {n : ℕ} (support_sets : List (Finset (Fin n)))
    (hne : support_sets ≠ []) (hall : ∀ S ∈ support_sets, S.Nonempty)
    (perms : List (List (Fin n))) (hp : perms ≠ [])
    (hperm : ∀ p ∈ perms, p.Perm (List.finRange n)) :
    (∀ p ∈ perms, ∃ t, Shap.walkCredit support_sets ∅ p = some t)
    ∧ (∀ t : Fin n, 0 ≤ Shap.approx_shapley support_sets perms t)
    ∧ ∑ t : Fin n, Shap.approx_shapley support_sets perms t = 1 := by
  have hcover : ∀ p ∈ perms, ∀ x : Fin n, x ∈ p := fun p hp' x =>
    (List.Perm.mem_iff (hperm p hp')).mpr (List.mem_finRange x)
  exact ⟨fun p hp' => Shap.walkCredit_total support_sets hne hall p (hcover p hp'),
    fun t => Shap.approx_shapley_nonneg support_sets perms t,
    Shap.approx_shapley_sum support_sets hne hall perms hp hcover⟩

theorem C10_amended_witness :
    (([{0}] : List (Finset (Fin 1))) ≠ []
      ∧ (∀ S ∈ ([{0}] : List (Finset (Fin 1))), S.Nonempty)
      ∧ ([[0]] : List (List (Fin 1))) ≠ []
      ∧ (∀ p ∈ ([[0]] : List (List (Fin 1))), p.Perm (List.finRange 1)))
    ∧ ((∀ p ∈ ([[0]] : List (List (Fin 1))),
          ∃ t, Shap.walkCredit ([{0}] : List (Finset (Fin 1))) ∅ p = some t)
      ∧ (∀ t : Fin 1, 0 ≤ Shap.approx_shapley ([{0}] : List (Finset (Fin 1))) [[0]] t)
      ∧ ∑ t : Fin 1, Shap.approx_shapley ([{0}] : List (Finset (Fin 1))) [[0]] t = 1) :=
  ⟨⟨by decide, by decide, by decide, by decide⟩,
    C10_amended [{0}] (by decide) (by decide) [[0]] (by decide) (by decide)⟩
